import Mathlib

/-!
Verification of the RSAES-PKCS1-v1_5 encryption scheme
(`lib/Crypto/Cipher/PKCS1_v1_5.py`).

Bytes are modelled as natural numbers (values below 256), byte strings as
`List Nat`.  The RSA key is modelled as a structure exposing the modulus and
the public/private integer transforms, following the spec's collaborator
contract (the transforms themselves are out of scope).  The random byte
source is modelled as a finite stream (`List Nat`) of pre-drawn bytes,
consumed in order; exhaustion of the stream models a source that violates
its contract and is reported by a distinguished error.
-/

set_option maxRecDepth 100000

instance {ε α : Type} [DecidableEq ε] [DecidableEq α] :
    DecidableEq (Except ε α) := fun x y =>
  match x, y with
  | .ok a, .ok b => decidable_of_iff (a = b) (by simp)
  | .error e, .error f => decidable_of_iff (e = f) (by simp)
  | .ok _, .error _ => .isFalse (fun h => by cases h)
  | .error _, .ok _ => .isFalse (fun h => by cases h)

namespace PKCS1

/-- Modelled from the spec: `Crypto.Util.number.size` (not under `src/`),
the bit length of a natural number (`size 0 = 0`).  `sizeAux` is fuel-based
(the fuel bounds the number of halvings; `n` itself is always enough). -/
def sizeAux : Nat → Nat → Nat
  | 0, _ => 0
  | fuel + 1, n => if n = 0 then 0 else sizeAux fuel (n / 2) + 1

/-- Modelled from the spec: bit length of the modulus. -/
def size (n : Nat) : Nat := sizeAux n n

/-- Modelled from the spec: `Crypto.Util.number.ceil_div` (not under
`src/`), ceiling division. -/
def ceil_div (a b : Nat) : Nat := if a % b = 0 then a / b else a / b + 1

/-- Big-endian interpretation of a byte string as an integer (OS2IP). -/
def os2ip (l : List Nat) : Nat := l.foldl (fun acc b => acc * 256 + b) 0

/-- Auxiliary, fuel-based minimal big-endian encoding (most significant
byte first, no leading zero bytes; `[]` for 0). -/
def toBytesAux : Nat → Nat → List Nat
  | 0, _ => []
  | fuel + 1, n => if n = 0 then [] else toBytesAux fuel (n / 256) ++ [n % 256]

/-- Modelled from the spec: `Crypto.Util.number.long_to_bytes` with no
block size (not under `src/`): the minimal big-endian byte encoding of a
natural number, except that 0 encodes as the single byte `0x00`. -/
def long_to_bytes (n : Nat) : List Nat := if n = 0 then [0] else toBytesAux n n

/-- Left-pad a byte string with zero bytes up to length `k`
(`'\x00'*(k-len(m)) + m` in the source). -/
def leftPad (k : Nat) (l : List Nat) : List Nat :=
  List.replicate (k - l.length) 0 ++ l

/-- Modelled from the spec: the RSA key collaborator.  `n` is the modulus;
`pubT` is the public transform (always available); `privT` is the private
transform, present only when the private half is held. -/
structure RSAKey where
  n : Nat
  pubT : Nat → Nat
  privT : Option (Nat → Nat)

/-- Modulus size in bytes: `k = ceil_div(size(key.n), 8)`. -/
def keyK (key : RSAKey) : Nat := ceil_div (size key.n) 8

/-- Errors raised by `encrypt`.  `messageTooLong` is the source's
`ValueError("Plaintext is too long.")`; `rngExhausted` models a random
source that violates its contract by failing to supply a byte. -/
inductive EncErr where
  | messageTooLong
  | rngExhausted
deriving DecidableEq

/-- Errors raised by `decrypt`.  `invalidCiphertextLength` is the source's
`ValueError("Ciphertext with incorrect length.")`; `noPrivateKey` is the
`TypeError` raised when the key has no private half. -/
inductive DecErr where
  | invalidCiphertextLength
  | noPrivateKey
deriving DecidableEq

/-- The `nonZeroRandByte` helper of `encrypt`: keep the candidate byte `c`
if it is nonzero, otherwise redraw from the stream until a nonzero byte
appears.  Returns the byte and the unconsumed remainder of the stream, or
`none` if the stream runs out. -/
def nonZeroRandByte (c : Nat) (pool : List Nat) : Option (Nat × List Nat) :=
  if c ≠ 0 then some (c, pool)
  else
    match pool with
    | [] => none
    | b :: rest => nonZeroRandByte b rest

/-- Map `nonZeroRandByte` over the initially drawn bytes, threading the
redraw stream through (`"".join(map(nonZeroRandByte(randFunc), ...))`). -/
def genPS : List Nat → List Nat → Option (List Nat × List Nat)
  | [], pool => some ([], pool)
  | c :: cs, pool =>
    match nonZeroRandByte c pool with
    | none => none
    | some (b, pool') =>
      match genPS cs pool' with
      | none => none
      | some (bs, pool'') => some (b :: bs, pool'')

/-- Step 2a of `encrypt`: the padding string PS of length `k - mLen - 3`,
drawn as a block of `k - mLen - 3` bytes from the stream and then
re-drawing every zero byte from the remainder of the stream. -/
def encryptPS (mLen k : Nat) (rng : List Nat) : Option (List Nat) :=
  let psLen := k - mLen - 3
  let initial := rng.take psLen
  if initial.length ≠ psLen then none
  else
    match genPS initial (rng.drop psLen) with
    | none => none
    | some (ps, _) => some ps

/-- Step 2b of `encrypt`: the encoded message block
`'\x00\x02' + ps + '\x00' + message` that is fed to the public transform. -/
def encryptEM (message : List Nat) (k : Nat) (rng : List Nat) :
    Option (List Nat) :=
  (encryptPS message.length k rng).map fun ps => 0 :: 2 :: (ps ++ 0 :: message)

/-- `encrypt(message, key, randFunc)` from `PKCS1_v1_5.py`: length check,
padding, block assembly, public transform, fixed-width re-encoding. -/
def encrypt (message : List Nat) (key : RSAKey) (rng : List Nat) :
    Except EncErr (List Nat) :=
  let k := keyK key
  if (message.length : Int) > (k : Int) - 11 then .error .messageTooLong
  else
    match encryptEM message k rng with
    | none => .error .rngExhausted
    | some em => .ok (leftPad k (long_to_bytes (key.pubT (os2ip em))))

/-- Step 2c of `decrypt`: the re-encoded k-byte block
`'\x00'*(k-len(m)) + m` obtained from the private-transform result. -/
def decryptEM (ct : List Nat) (k : Nat) (priv : Nat → Nat) : List Nat :=
  leftPad k (long_to_bytes (priv (os2ip ct)))

/-- The separator index `sep = em.find('\x00', 2)`: index of the first zero
byte at position ≥ 2, or `-1` when there is none (as in Python). -/
def sepOf (em : List Nat) : Int :=
  match (em.drop 2).findIdx? (· = 0) with
  | none => -1
  | some i => (i : Int) + 2

/-- The structural validation test of `decrypt` (step 3):
`not em.startswith('\x00\x02') or sep < 10`. -/
def failsValidation (em : List Nat) : Bool :=
  !(em.take 2 = [0, 2] : Bool) || (sepOf em < 10 : Bool)

/-- `decrypt(ct, key, sentinel)` from `PKCS1_v1_5.py`: length check,
private transform, fixed-width re-encoding, structural validation,
sentinel on failure, message extraction on success. -/
def decrypt (ct : List Nat) (key : RSAKey) (sentinel : List Nat) :
    Except DecErr (List Nat) :=
  let k := keyK key
  if ct.length ≠ k then .error .invalidCiphertextLength
  else
    match key.privT with
    | none => .error .noPrivateKey
    | some priv =>
      let em := decryptEM ct k priv
      if failsValidation em then .ok sentinel
      else .ok (em.drop ((sepOf em).toNat + 1))

/-- A concrete private transform used for concrete instances: reduction
modulo `2 ^ 95`. -/
def priv0 : Nat → Nat := fun x => x % 2 ^ 95

/-- A concrete key with both halves whose modulus has 96 bits, so k = 12. -/
def key0 : RSAKey := ⟨2 ^ 95, priv0, some priv0⟩

/-- A concrete key holding only the public half. -/
def keyPub : RSAKey := ⟨2 ^ 95, priv0, none⟩

theorem os2ip_foldl (a : Nat) (l : List Nat) :
    l.foldl (fun acc b => acc * 256 + b) a = a * 256 ^ l.length + os2ip l := by
  induction l generalizing a with
  | nil => simp [os2ip]
  | cons b t ih =>
    show List.foldl _ (a * 256 + b) t = _
    rw [ih]
    show _ = _ + os2ip (b :: t)
    have : os2ip (b :: t) = List.foldl (fun acc b => acc * 256 + b) (0 * 256 + b) t := rfl
    rw [this, ih]
    simp [List.length_cons, pow_succ]
    ring

theorem os2ip_cons (b : Nat) (l : List Nat) :
    os2ip (b :: l) = b * 256 ^ l.length + os2ip l := by
  show List.foldl _ (0 * 256 + b) l = _
  rw [os2ip_foldl]
  simp

theorem os2ip_append (l₁ l₂ : List Nat) :
    os2ip (l₁ ++ l₂) = os2ip l₁ * 256 ^ l₂.length + os2ip l₂ := by
  show List.foldl _ 0 (l₁ ++ l₂) = _
  rw [List.foldl_append, os2ip_foldl]
  rfl

theorem os2ip_lt (l : List Nat) (h : ∀ b ∈ l, b < 256) :
    os2ip l < 256 ^ l.length := by
  induction l with
  | nil => simp [os2ip]
  | cons b t ih =>
    rw [os2ip_cons]
    have hb : b < 256 := h b (List.mem_cons_self b t)
    have ht : os2ip t < 256 ^ t.length := ih fun x hx => h x (List.mem_cons_of_mem b hx)
    calc b * 256 ^ t.length + os2ip t
        < b * 256 ^ t.length + 256 ^ t.length := by omega
      _ = (b + 1) * 256 ^ t.length := by ring
      _ ≤ 256 * 256 ^ t.length := by
          exact Nat.mul_le_mul_right _ (by omega)
      _ = 256 ^ (t.length + 1) := by ring
      _ = 256 ^ (b :: t).length := by simp

theorem os2ip_pos (b : Nat) (t : List Nat) (hb : b ≠ 0) : 0 < os2ip (b :: t) := by
  rw [os2ip_cons]
  have h1 : 0 < 256 ^ t.length := pow_pos (by omega) _
  have h2 : 1 * 1 ≤ b * 256 ^ t.length := Nat.mul_le_mul (by omega) h1
  omega

theorem os2ip_replicate_zero (m : Nat) : os2ip (List.replicate m 0) = 0 := by
  induction m with
  | zero => rfl
  | succ m ih => rw [List.replicate_succ, os2ip_cons, ih]; simp

theorem os2ip_leftPad (k : Nat) (l : List Nat) : os2ip (leftPad k l) = os2ip l := by
  rw [leftPad, os2ip_append, os2ip_replicate_zero]
  simp

theorem leftPad_length (k : Nat) (l : List Nat) (h : l.length ≤ k) :
    (leftPad k l).length = k := by
  simp [leftPad]
  omega

theorem leftPad_self (l : List Nat) : leftPad l.length l = l := by
  simp [leftPad]

theorem os2ip_toBytesAux (fuel : Nat) : ∀ n, n ≤ fuel →
    os2ip (toBytesAux fuel n) = n := by
  induction fuel with
  | zero =>
    intro n hn
    have : n = 0 := by omega
    subst this
    rfl
  | succ fuel ih =>
    intro n hn
    by_cases h0 : n = 0
    · simp [toBytesAux, h0, os2ip]
    · rw [toBytesAux, if_neg h0, os2ip_append]
      have hdiv : n / 256 ≤ fuel := by
        have : n / 256 < n := Nat.div_lt_self (by omega) (by omega)
        omega
      rw [ih _ hdiv]
      have : os2ip [n % 256] = n % 256 := by simp [os2ip]
      rw [this]
      simp only [List.length_cons, List.length_nil, pow_one, pow_zero]
      omega

theorem toBytesAux_length (fuel : Nat) : ∀ n j, n ≤ fuel → n < 256 ^ j →
    (toBytesAux fuel n).length ≤ j := by
  induction fuel with
  | zero => intro n j _ _; simp [toBytesAux]
  | succ fuel ih =>
    intro n j hn hj
    by_cases h0 : n = 0
    · simp [toBytesAux, h0]
    · rw [toBytesAux, if_neg h0]
      have hjpos : j ≠ 0 := by
        intro h
        rw [h, pow_zero] at hj
        omega
      obtain ⟨j', rfl⟩ : ∃ j', j = j' + 1 := ⟨j - 1, by omega⟩
      have hdivfuel : n / 256 ≤ fuel := by
        have : n / 256 < n := Nat.div_lt_self (by omega) (by omega)
        omega
      have hdivlt : n / 256 < 256 ^ j' := by
        apply Nat.div_lt_of_lt_mul
        rw [← pow_succ']
        exact hj
      have := ih (n / 256) j' hdivfuel hdivlt
      simp only [List.length_append, List.length_cons, List.length_nil]
      omega

theorem long_to_bytes_length (n k : Nat) (hk : 1 ≤ k) (h : n < 256 ^ k) :
    (long_to_bytes n).length ≤ k := by
  by_cases h0 : n = 0
  · simp [long_to_bytes, h0]
    omega
  · rw [long_to_bytes, if_neg h0]
    exact toBytesAux_length n n k (le_refl n) h

theorem os2ip_long_to_bytes (n : Nat) : os2ip (long_to_bytes n) = n := by
  by_cases h0 : n = 0
  · simp [long_to_bytes, h0, os2ip]
  · rw [long_to_bytes, if_neg h0]
    exact os2ip_toBytesAux n n (le_refl n)

theorem toBytesAux_os2ip (h : Nat) (t : List Nat) (hh : h ≠ 0)
    (hbytes : ∀ b ∈ h :: t, b < 256) :
    ∀ fuel, os2ip (h :: t) ≤ fuel → toBytesAux fuel (os2ip (h :: t)) = h :: t := by
  induction t using List.reverseRecOn with
  | nil =>
    intro fuel hfuel
    have hos : os2ip [h] = h := by simp [os2ip]
    rw [hos] at hfuel ⊢
    obtain ⟨f, rfl⟩ : ∃ f, fuel = f + 1 := ⟨fuel - 1, by omega⟩
    rw [toBytesAux, if_neg hh]
    have hlt : h < 256 := hbytes h (by simp)
    rw [Nat.div_eq_of_lt hlt, Nat.mod_eq_of_lt hlt]
    cases f <;> simp [toBytesAux]
  | append_singleton t a ih =>
    intro fuel hfuel
    have hsplit : h :: (t ++ [a]) = (h :: t) ++ [a] := by simp
    have ha : a < 256 := hbytes a (by simp)
    have hbytes' : ∀ b ∈ h :: t, b < 256 := by
      intro b hb
      apply hbytes
      rcases hb with _ | hb
      · simp
      · simp only [hsplit, List.mem_append]
        left
        exact List.mem_cons_of_mem h (by assumption)
    have hos : os2ip (h :: (t ++ [a])) = os2ip (h :: t) * 256 + a := by
      rw [hsplit, os2ip_append]
      simp [os2ip]
    have hpos : 0 < os2ip (h :: t) := os2ip_pos h t hh
    rw [hos] at hfuel ⊢
    obtain ⟨f, rfl⟩ : ∃ f, fuel = f + 1 := ⟨fuel - 1, by omega⟩
    have hne : os2ip (h :: t) * 256 + a ≠ 0 := by omega
    rw [toBytesAux, if_neg hne]
    have hdiv : (os2ip (h :: t) * 256 + a) / 256 = os2ip (h :: t) := by
      omega
    have hmod : (os2ip (h :: t) * 256 + a) % 256 = a := by
      omega
    rw [hdiv, hmod, ih hbytes' f (by omega)]
    exact hsplit.symm

theorem reconstruct (b : Nat) (t : List Nat)
    (hbytes : ∀ x ∈ b :: t, x < 256) :
    leftPad (b :: t).length (long_to_bytes (os2ip (b :: t))) = b :: t := by
  induction t generalizing b with
  | nil =>
    by_cases hb : b = 0
    · subst hb; rfl
    · have h1 : long_to_bytes (os2ip [b]) = [b] := by
        rw [long_to_bytes,
          if_neg (Nat.pos_iff_ne_zero.mp (os2ip_pos b [] hb))]
        exact toBytesAux_os2ip b [] hb hbytes _ (le_refl _)
      rw [h1]
      exact leftPad_self [b]
  | cons c t' ih =>
    by_cases hb : b = 0
    · subst hb
      have hos : os2ip (0 :: c :: t') = os2ip (c :: t') := by
        rw [os2ip_cons]; simp
      have hprev := ih c fun x hx => hbytes x (List.mem_cons_of_mem 0 hx)
      have hlen : (long_to_bytes (os2ip (c :: t'))).length ≤ (c :: t').length := by
        have := congrArg List.length hprev
        simp only [leftPad, List.length_append, List.length_replicate] at this
        omega
      rw [hos, leftPad]
      rw [leftPad] at hprev
      have harith : (0 :: c :: t').length - (long_to_bytes (os2ip (c :: t'))).length
          = ((c :: t').length - (long_to_bytes (os2ip (c :: t'))).length) + 1 := by
        simp only [List.length_cons] at hlen ⊢
        omega
      rw [harith, List.replicate_succ, List.cons_append, hprev]
    · have h1 : long_to_bytes (os2ip (b :: c :: t')) = b :: c :: t' := by
        rw [long_to_bytes,
          if_neg (Nat.pos_iff_ne_zero.mp (os2ip_pos b (c :: t') hb))]
        exact toBytesAux_os2ip b (c :: t') hb hbytes _ (le_refl _)
      rw [h1]
      exact leftPad_self _

theorem leftPad_succ (m : Nat) (l : List Nat) (h : l.length ≤ m) :
    leftPad (m + 1) l = 0 :: leftPad m l := by
  rw [leftPad, leftPad]
  have : m + 1 - l.length = (m - l.length) + 1 := by omega
  rw [this, List.replicate_succ, List.cons_append]

theorem nonZeroRandByte_spec (pool : List Nat) : ∀ c b pool',
    nonZeroRandByte c pool = some (b, pool') →
    b ≠ 0 ∧ (b = c ∨ b ∈ pool) ∧ pool' ⊆ pool := by
  induction pool with
  | nil =>
    intro c b pool' h
    simp only [nonZeroRandByte] at h
    by_cases hc : c ≠ 0
    · rw [if_pos hc] at h
      cases h
      exact ⟨hc, Or.inl rfl, fun y hy => hy⟩
    · rw [if_neg hc] at h
      cases h
  | cons x rest ih =>
    intro c b pool' h
    simp only [nonZeroRandByte] at h
    by_cases hc : c ≠ 0
    · rw [if_pos hc] at h
      cases h
      exact ⟨hc, Or.inl rfl, fun y hy => hy⟩
    · rw [if_neg hc] at h
      obtain ⟨hb, hbc, hsub⟩ := ih x b pool' h
      refine ⟨hb, Or.inr ?_, fun y hy => List.mem_cons_of_mem x (hsub hy)⟩
      rcases hbc with rfl | hbin
      · exact List.mem_cons_self _ _
      · exact List.mem_cons_of_mem _ hbin

theorem genPS_spec (initial : List Nat) : ∀ pool ps rest,
    genPS initial pool = some (ps, rest) →
    ps.length = initial.length ∧ (∀ b ∈ ps, b ≠ 0) ∧
      (∀ b ∈ ps, b ∈ initial ∨ b ∈ pool) := by
  induction initial with
  | nil =>
    intro pool ps rest h
    simp only [genPS] at h
    cases h
    simp
  | cons c cs ih =>
    intro pool ps rest h
    cases hx : nonZeroRandByte c pool with
    | none =>
      simp only [genPS, hx] at h
      cases h
    | some v =>
      obtain ⟨b, pool'⟩ := v
      cases hg : genPS cs pool' with
      | none =>
        simp only [genPS, hx, hg] at h
        cases h
      | some w =>
        obtain ⟨bs, pool''⟩ := w
        simp only [genPS, hx, hg, Option.some.injEq, Prod.mk.injEq] at h
        obtain ⟨h1, h2⟩ := h
        subst h1
        subst h2
        obtain ⟨hb0, hbc, hsub⟩ := nonZeroRandByte_spec pool c b pool' hx
        obtain ⟨hlen, hne, hmem⟩ := ih pool' bs pool'' hg
        refine ⟨by simp [hlen], ?_, ?_⟩
        · intro y hy
          rcases List.mem_cons.mp hy with rfl | hy'
          · exact hb0
          · exact hne y hy'
        · intro y hy
          rcases List.mem_cons.mp hy with rfl | hy'
          · rcases hbc with rfl | hbin
            · exact Or.inl (List.mem_cons_self _ _)
            · exact Or.inr hbin
          · rcases hmem y hy' with h1 | h1
            · exact Or.inl (List.mem_cons_of_mem _ h1)
            · exact Or.inr (hsub h1)

theorem encryptPS_spec (mLen k : Nat) (rng : List Nat) (ps : List Nat)
    (h : encryptPS mLen k rng = some ps) :
    ps.length = k - mLen - 3 ∧ (∀ b ∈ ps, b ≠ 0) ∧ (∀ b ∈ ps, b ∈ rng) := by
  by_cases hlen : (rng.take (k - mLen - 3)).length ≠ k - mLen - 3
  · simp only [encryptPS, if_pos hlen] at h
    cases h
  · push_neg at hlen
    cases hg : genPS (rng.take (k - mLen - 3)) (rng.drop (k - mLen - 3)) with
    | none =>
      simp only [encryptPS,
        if_neg (by omega : ¬ (rng.take (k - mLen - 3)).length ≠ k - mLen - 3),
        hg] at h
      cases h
    | some w =>
      obtain ⟨ps0, rest⟩ := w
      simp only [encryptPS,
        if_neg (by omega : ¬ (rng.take (k - mLen - 3)).length ≠ k - mLen - 3),
        hg, Option.some.injEq] at h
      subst h
      obtain ⟨h1, h2, h3⟩ := genPS_spec _ _ _ _ hg
      refine ⟨h1.trans hlen, h2, fun b hb => ?_⟩
      rcases h3 b hb with h4 | h4
      · exact List.take_subset _ _ h4
      · exact List.drop_subset _ _ h4

theorem encryptEM_spec (message rng : List Nat) (k : Nat) (em : List Nat)
    (h : encryptEM message k rng = some em) :
    ∃ ps, em = 0 :: 2 :: (ps ++ 0 :: message) ∧
      ps.length = k - message.length - 3 ∧
      (∀ b ∈ ps, b ≠ 0) ∧ (∀ b ∈ ps, b ∈ rng) := by
  simp only [encryptEM, Option.map_eq_some'] at h
  obtain ⟨ps, hps, hem⟩ := h
  obtain ⟨h1, h2, h3⟩ := encryptPS_spec message.length k rng ps hps
  exact ⟨ps, hem.symm, h1, h2, h3⟩

theorem encrypt_ok_spec (message rng ct : List Nat) (key : RSAKey)
    (h : encrypt message key rng = .ok ct) :
    (message.length : Int) ≤ (keyK key : Int) - 11 ∧
    ∃ em, encryptEM message (keyK key) rng = some em ∧
      ct = leftPad (keyK key) (long_to_bytes (key.pubT (os2ip em))) := by
  simp only [encrypt] at h
  by_cases hlen : (message.length : Int) > (keyK key : Int) - 11
  · rw [if_pos hlen] at h
    cases h
  · rw [if_neg hlen] at h
    refine ⟨by omega, ?_⟩
    cases hem : encryptEM message (keyK key) rng with
    | none => rw [hem] at h; cases h
    | some em =>
      rw [hem] at h
      cases h
      exact ⟨em, rfl, rfl⟩

theorem findIdx_zero_aux (ps l : List Nat) (hps : ∀ b ∈ ps, b ≠ 0) : ∀ i,
    (ps ++ 0 :: l).findIdx? (· = 0) i = some (ps.length + i) := by
  induction ps with
  | nil => intro i; simp [List.findIdx?_cons]
  | cons a ps' ih =>
    intro i
    have ha : a ≠ 0 := hps a (List.mem_cons_self _ _)
    rw [List.cons_append, List.findIdx?_cons, if_neg (by simp [ha])]
    rw [ih (fun b hb => hps b (List.mem_cons_of_mem _ hb)) (i + 1)]
    have harith : ps'.length + (i + 1) = (a :: ps').length + i := by
      simp only [List.length_cons]
      omega
    rw [harith]

theorem sepOf_structured (ps msg : List Nat) (hps : ∀ b ∈ ps, b ≠ 0) :
    sepOf (0 :: 2 :: (ps ++ 0 :: msg)) = (ps.length : Int) + 2 := by
  rw [sepOf]
  have hdrop : (0 :: 2 :: (ps ++ 0 :: msg)).drop 2 = ps ++ 0 :: msg := rfl
  rw [hdrop, findIdx_zero_aux ps msg hps 0]
  simp

/-- C1: for every RSA key holding both halves, every byte message whose
length is at most k − 11, every random-byte source meeting the contract
(byte values below 256, draws sufficient for `encrypt` to succeed) and
every sentinel, `decrypt (encrypt message key rng) key sentinel` returns
exactly the original message, assuming the private transform inverts the
public transform (on integers below `256 ^ (k − 1)`, which covers every
encoded block since blocks start with a zero byte) and the public
transform returns integers below `256 ^ k` (its contract: results are
reduced modulo the k-byte modulus). -/
theorem C1_roundtrip (message sentinel rng ct : List Nat) (key : RSAKey)
    (priv : Nat → Nat) (hpriv : key.privT = some priv)
    (hmsg : ∀ b ∈ message, b < 256)
    (hrng : ∀ b ∈ rng, b < 256)
    (hpub : ∀ x, key.pubT x < 256 ^ keyK key)
    (hinv : ∀ x, x < 256 ^ (keyK key - 1) → priv (key.pubT x) = x)
    (henc : encrypt message key rng = .ok ct) :
    decrypt ct key sentinel = .ok message := by
  obtain ⟨hm, em, hem, hct⟩ := encrypt_ok_spec message rng ct key henc
  obtain ⟨ps, hemEq, hpsLen, hps0, hpsRng⟩ :=
    encryptEM_spec message rng (keyK key) em hem
  have hk11 : 11 ≤ keyK key := by omega
  have hmLen : message.length + 11 ≤ keyK key := by omega
  have htailBytes : ∀ b ∈ 2 :: (ps ++ 0 :: message), b < 256 := by
    intro b hb
    rcases List.mem_cons.mp hb with rfl | hb
    · omega
    · rcases List.mem_append.mp hb with hb | hb
      · exact hrng b (hpsRng b hb)
      · rcases List.mem_cons.mp hb with rfl | hb
        · omega
        · exact hmsg b hb
  have htailLen : (2 :: (ps ++ 0 :: message)).length = keyK key - 1 := by
    simp only [List.length_cons, List.length_append]
    omega
  have hxlt : os2ip (2 :: (ps ++ 0 :: message)) < 256 ^ (keyK key - 1) := by
    have h := os2ip_lt _ htailBytes
    rwa [htailLen] at h
  have hosEm : os2ip em = os2ip (2 :: (ps ++ 0 :: message)) := by
    rw [hemEq, os2ip_cons]
    simp
  have hctBytesLen : (long_to_bytes (key.pubT (os2ip em))).length ≤ keyK key :=
    long_to_bytes_length _ _ (by omega) (hpub _)
  have hctLen : ct.length = keyK key := by
    rw [hct]
    exact leftPad_length _ _ hctBytesLen
  have hosCt : os2ip ct = key.pubT (os2ip em) := by
    rw [hct, os2ip_leftPad, os2ip_long_to_bytes]
  have hprivpub : priv (os2ip ct) = os2ip em := by
    rw [hosCt, hosEm]
    exact hinv _ hxlt
  have h1 : leftPad (2 :: (ps ++ 0 :: message)).length
      (long_to_bytes (os2ip (2 :: (ps ++ 0 :: message)))) =
      2 :: (ps ++ 0 :: message) :=
    reconstruct 2 (ps ++ 0 :: message) htailBytes
  have hlen' : (long_to_bytes (os2ip (2 :: (ps ++ 0 :: message)))).length ≤
      (2 :: (ps ++ 0 :: message)).length := by
    have h2 := congrArg List.length h1
    simp only [leftPad, List.length_append, List.length_replicate] at h2
    omega
  have hrecon : decryptEM ct (keyK key) priv = em := by
    show leftPad (keyK key) (long_to_bytes (priv (os2ip ct))) = em
    rw [hprivpub, hosEm]
    have hksucc : keyK key = (2 :: (ps ++ 0 :: message)).length + 1 := by omega
    rw [hksucc, leftPad_succ _ _ hlen', h1, hemEq]
  have hsep : sepOf em = (ps.length : Int) + 2 := by
    rw [hemEq]
    exact sepOf_structured ps message hps0
  have hfails : failsValidation em = false := by
    rw [failsValidation]
    have h2 : em.take 2 = [0, 2] := by rw [hemEq]; rfl
    have h3 : ¬ (sepOf em < 10) := by
      rw [hsep]
      have : 8 ≤ ps.length := by omega
      omega
    simp [h2, h3]
  have hdrop : em.drop ((sepOf em).toNat + 1) = message := by
    rw [hsep]
    have h2 : ((ps.length : Int) + 2).toNat + 1 = ps.length + 3 := by omega
    rw [h2, hemEq]
    have hsplit : (0 : Nat) :: 2 :: (ps ++ 0 :: message) =
        ((0 :: 2 :: ps) ++ [0]) ++ message := by
      simp
    rw [hsplit]
    exact List.drop_left' (by simp)
  have hfinal : decrypt ct key sentinel = .ok (em.drop ((sepOf em).toNat + 1)) := by
    simp only [decrypt, hpriv, hrecon, hfails]
    rw [if_neg (show ¬ ct.length ≠ keyK key by omega)]
    simp
  rw [hfinal, hdrop]

/-- Witness for C1 at a concrete instance: the 96-bit modulus key `key0`
with transforms reducing modulo `2 ^ 95`, message `[65]`, an all-ones
random stream, sentinel `[9]`. -/
theorem C1_roundtrip_witness :
    decrypt [0, 2, 1, 1, 1, 1, 1, 1, 1, 1, 0, 65] key0 [9] = .ok [65] :=
  C1_roundtrip [65] [9] [1, 1, 1, 1, 1, 1, 1, 1]
    [0, 2, 1, 1, 1, 1, 1, 1, 1, 1, 0, 65] key0 priv0 rfl
    (by decide) (by decide)
    (fun x => lt_of_lt_of_le (Nat.mod_lt x (by norm_num))
      (by rw [(by decide : keyK key0 = 12)]; norm_num))
    (fun x hx => by
      have hlt : x < 2 ^ 95 :=
        lt_of_lt_of_le hx (by rw [(by decide : keyK key0 = 12)]; norm_num)
      show (x % 2 ^ 95) % 2 ^ 95 = x
      rw [Nat.mod_eq_of_lt hlt, Nat.mod_eq_of_lt hlt])
    (by decide)

/-- C3: for every message with length at most k − 11 whose padding draws
succeed, the encoded block fed to the public transform is exactly k bytes
laid out as 0x00, 0x02, a padding string PS of exactly k − mLen − 3 bytes
in which every byte is nonzero (zero draws are rejected and redrawn), a
single 0x00 separator, then the message. -/
theorem C3_block_structure (message rng : List Nat) (k : Nat) (em : List Nat)
    (hm : (message.length : Int) ≤ (k : Int) - 11)
    (h : encryptEM message k rng = some em) :
    ∃ ps, em = 0 :: 2 :: (ps ++ 0 :: message) ∧
      ps.length = k - message.length - 3 ∧
      (∀ b ∈ ps, b ≠ 0) ∧ em.length = k := by
  obtain ⟨ps, hemEq, hlen, h0, _⟩ := encryptEM_spec message rng k em h
  refine ⟨ps, hemEq, hlen, h0, ?_⟩
  rw [hemEq]
  simp only [List.length_cons, List.length_append]
  omega

/-- Witness for C3 at a concrete instance: k = 12 and a one-byte message,
so PS has eight bytes. -/
theorem C3_block_structure_witness :
    ∃ ps, ([0, 2, 1, 1, 1, 1, 1, 1, 1, 1, 0, 65] : List Nat) =
        0 :: 2 :: (ps ++ 0 :: [65]) ∧
      ps.length = 12 - [65].length - 3 ∧
      (∀ b ∈ ps, b ≠ 0) ∧
      ([0, 2, 1, 1, 1, 1, 1, 1, 1, 1, 0, 65] : List Nat).length = 12 :=
  C3_block_structure [65] [1, 1, 1, 1, 1, 1, 1, 1] 12
    [0, 2, 1, 1, 1, 1, 1, 1, 1, 1, 0, 65] (by decide) (by decide)

/-- C4: for every correct-length ciphertext (with the private half present
and its result within the transform's range contract), decrypt re-encodes
the private-transform result as exactly k bytes, big-endian with mandatory
zero left-padding, and on successful validation returns every byte of that
block strictly after index sep. -/
theorem C4_reencode (ct sentinel : List Nat) (key : RSAKey)
    (priv : Nat → Nat) (hpriv : key.privT = some priv)
    (hk : 1 ≤ keyK key) (hlen : ct.length = keyK key)
    (hbound : priv (os2ip ct) < 256 ^ keyK key) :
    (decryptEM ct (keyK key) priv).length = keyK key ∧
    decryptEM ct (keyK key) priv =
      List.replicate (keyK key - (long_to_bytes (priv (os2ip ct))).length) 0 ++
        long_to_bytes (priv (os2ip ct)) ∧
    (failsValidation (decryptEM ct (keyK key) priv) = false →
      decrypt ct key sentinel =
        .ok ((decryptEM ct (keyK key) priv).drop
          ((sepOf (decryptEM ct (keyK key) priv)).toNat + 1))) := by
  refine ⟨?_, rfl, ?_⟩
  · exact leftPad_length _ _ (long_to_bytes_length _ _ hk hbound)
  · intro hval
    simp only [decrypt, hpriv, hval]
    rw [if_neg (show ¬ ct.length ≠ keyK key by omega)]
    simp

/-- Witness for C4 at a concrete instance: a valid 12-byte block under the
identity-on-range transforms of `key0`. -/
theorem C4_reencode_witness :
    (decryptEM [0, 2, 1, 1, 1, 1, 1, 1, 1, 1, 0, 65] (keyK key0) priv0).length
        = keyK key0 ∧
    decryptEM [0, 2, 1, 1, 1, 1, 1, 1, 1, 1, 0, 65] (keyK key0) priv0 =
      List.replicate (keyK key0 -
          (long_to_bytes
            (priv0 (os2ip [0, 2, 1, 1, 1, 1, 1, 1, 1, 1, 0, 65]))).length) 0 ++
        long_to_bytes (priv0 (os2ip [0, 2, 1, 1, 1, 1, 1, 1, 1, 1, 0, 65])) ∧
    (failsValidation
        (decryptEM [0, 2, 1, 1, 1, 1, 1, 1, 1, 1, 0, 65] (keyK key0) priv0) =
        false →
      decrypt [0, 2, 1, 1, 1, 1, 1, 1, 1, 1, 0, 65] key0 [9] =
        .ok ((decryptEM [0, 2, 1, 1, 1, 1, 1, 1, 1, 1, 0, 65]
            (keyK key0) priv0).drop
          ((sepOf (decryptEM [0, 2, 1, 1, 1, 1, 1, 1, 1, 1, 0, 65]
            (keyK key0) priv0)).toNat + 1))) :=
  C4_reencode [0, 2, 1, 1, 1, 1, 1, 1, 1, 1, 0, 65] [9] key0 priv0 rfl
    (by decide) (by decide) (by decide)

/-- C5: encrypt fails with the message-too-long error exactly when
len(message) > k − 11, the comparison taken over the integers as in the
source (so in particular a message of length k − 10 fails, and a message
within the limit never produces this error). -/
theorem C5_messageTooLong_iff (message rng : List Nat) (key : RSAKey) :
    encrypt message key rng = .error .messageTooLong ↔
      (message.length : Int) > (keyK key : Int) - 11 := by
  constructor
  · intro h
    by_contra hlen
    cases hem : encryptEM message (keyK key) rng with
    | none =>
      simp only [encrypt, if_neg hlen, hem] at h
      exact EncErr.noConfusion (Except.error.inj h)
    | some em =>
      simp only [encrypt, if_neg hlen, hem] at h
      cases h
  · intro h
    simp only [encrypt, if_pos h]

/-- C6: decrypt fails with the invalid-ciphertext-length error exactly
when len(ciphertext) ≠ k, and this failure is an error, not a sentinel
return (in particular a ciphertext of k − 1 bytes fails this way). -/
theorem C6_length_iff (ct sentinel : List Nat) (key : RSAKey) :
    decrypt ct key sentinel = .error .invalidCiphertextLength ↔
      ct.length ≠ keyK key := by
  constructor
  · intro h
    by_contra hlen
    cases hp : key.privT with
    | none =>
      simp only [decrypt, if_neg (show ¬ ct.length ≠ keyK key by omega), hp] at h
      exact DecErr.noConfusion (Except.error.inj h)
    | some priv =>
      by_cases hv : failsValidation (decryptEM ct (keyK key) priv) = true
      · simp only [decrypt, if_neg (show ¬ ct.length ≠ keyK key by omega), hp,
          if_pos hv] at h
        cases h
      · simp only [decrypt, if_neg (show ¬ ct.length ≠ keyK key by omega), hp,
          if_neg hv] at h
        cases h
  · intro h
    simp only [decrypt, if_pos h]

/-- C7: for every message satisfying the length precondition (and a
public transform meeting its range contract), encrypt returns exactly k
bytes: the big-endian encoding of the public-transform result of the
encoded block, left-padded with zero bytes. -/
theorem C7_ciphertext_length (message rng ct : List Nat) (key : RSAKey)
    (hpub : ∀ x, key.pubT x < 256 ^ keyK key)
    (h : encrypt message key rng = .ok ct) :
    ct.length = keyK key ∧
    ∃ em, encryptEM message (keyK key) rng = some em ∧
      ct = leftPad (keyK key) (long_to_bytes (key.pubT (os2ip em))) := by
  obtain ⟨hm, em, hem, hct⟩ := encrypt_ok_spec message rng ct key h
  have hk : 1 ≤ keyK key := by omega
  refine ⟨?_, em, hem, hct⟩
  rw [hct]
  exact leftPad_length _ _ (long_to_bytes_length _ _ hk (hpub _))

/-- Witness for C7 at a concrete instance: the `key0` encryption of `[65]`
has exactly 12 bytes. -/
theorem C7_ciphertext_length_witness :
    ([0, 2, 1, 1, 1, 1, 1, 1, 1, 1, 0, 65] : List Nat).length = keyK key0 ∧
    ∃ em, encryptEM [65] (keyK key0) [1, 1, 1, 1, 1, 1, 1, 1] = some em ∧
      ([0, 2, 1, 1, 1, 1, 1, 1, 1, 1, 0, 65] : List Nat) =
        leftPad (keyK key0) (long_to_bytes (key0.pubT (os2ip em))) :=
  C7_ciphertext_length [65] [1, 1, 1, 1, 1, 1, 1, 1]
    [0, 2, 1, 1, 1, 1, 1, 1, 1, 1, 0, 65] key0
    (fun x => lt_of_lt_of_le (Nat.mod_lt x (by norm_num))
      (by rw [(by decide : keyK key0 = 12)]; norm_num))
    (by decide)

/-- C2 as stated is false: a structurally valid block whose recovered
message happens to equal the sentinel makes decrypt return the sentinel
value even though validation succeeded, so returning the sentinel value is
not equivalent to failing structural validation. -/
theorem C2_counterexample :
    ¬ (decrypt [0, 2, 1, 1, 1, 1, 1, 1, 1, 1, 0, 7] key0 [7] = .ok [7] ↔
        failsValidation
          (decryptEM [0, 2, 1, 1, 1, 1, 1, 1, 1, 1, 0, 7] (keyK key0) priv0)
          = true) := by
  decide

/-- C2 (amended): for every correct-length ciphertext and sentinel (with
the private half present), decrypt never raises: it returns exactly the
sentinel whenever the re-encoded k-byte block fails structural validation
(first two bytes not 0x00 0x02, or no 0x00 byte at index ≥ 2, or first
such index sep < 10 — covering in particular a block starting 0x00 0x03
and a block with the separator at index 2), and otherwise returns the
decoded message, which equals the sentinel only when the two byte strings
coincide. -/
theorem C2_sentinel_on_failure (ct sentinel : List Nat) (key : RSAKey)
    (priv : Nat → Nat) (hpriv : key.privT = some priv)
    (hlen : ct.length = keyK key) :
    (failsValidation (decryptEM ct (keyK key) priv) = true →
      decrypt ct key sentinel = .ok sentinel) ∧
    (failsValidation (decryptEM ct (keyK key) priv) = false →
      decrypt ct key sentinel =
        .ok ((decryptEM ct (keyK key) priv).drop
          ((sepOf (decryptEM ct (keyK key) priv)).toNat + 1))) := by
  constructor
  · intro hv
    simp only [decrypt, hpriv, hv]
    rw [if_neg (show ¬ ct.length ≠ keyK key by omega)]
    simp
  · intro hv
    simp only [decrypt, hpriv, hv]
    rw [if_neg (show ¬ ct.length ≠ keyK key by omega)]
    simp

/-- Witness for the amended C2: a 12-byte block starting 0x00 0x03 yields
exactly the sentinel. -/
theorem C2_sentinel_on_failure_witness :
    decrypt [0, 3, 1, 1, 1, 1, 1, 1, 1, 1, 0, 7] key0 [9] = .ok [9] :=
  (C2_sentinel_on_failure [0, 3, 1, 1, 1, 1, 1, 1, 1, 1, 0, 7] [9] key0
    priv0 rfl (by decide)).1 (by decide)

/-- C8 as stated is false: with a wrong-length ciphertext, a key lacking
the private half fails with the length error, not with `noPrivateKey`,
because the length check runs first. -/
theorem C8_counterexample :
    decrypt [1] keyPub [9] = .error .invalidCiphertextLength ∧
    decrypt [1] keyPub [9] ≠ .error .noPrivateKey := by
  decide

/-- C8 (amended): calling decrypt with a ciphertext of the correct length
k and a key lacking the private-transform capability fails with the
`noPrivateKey` capability error, which is distinct from every sentinel
return and from the `invalidCiphertextLength` error. -/
theorem C8_noPrivateKey (ct sentinel : List Nat) (key : RSAKey)
    (hpriv : key.privT = none) (hlen : ct.length = keyK key) :
    decrypt ct key sentinel = .error .noPrivateKey ∧
    (Except.error DecErr.noPrivateKey : Except DecErr (List Nat)) ≠
      .ok sentinel ∧
    DecErr.noPrivateKey ≠ DecErr.invalidCiphertextLength := by
  refine ⟨?_, by simp, by simp⟩
  simp only [decrypt, hpriv]
  rw [if_neg (show ¬ ct.length ≠ keyK key by omega)]

/-- Witness for the amended C8: a 12-byte ciphertext under the public-only
key fails with the capability error. -/
theorem C8_noPrivateKey_witness :
    decrypt (List.replicate 12 1) keyPub [9] = .error .noPrivateKey ∧
    (Except.error DecErr.noPrivateKey : Except DecErr (List Nat)) ≠
      .ok [9] ∧
    DecErr.noPrivateKey ≠ DecErr.invalidCiphertextLength :=
  C8_noPrivateKey (List.replicate 12 1) [9] keyPub rfl (by decide)

/-- C10: decrypt performs the ciphertext-length check before invoking the
private transform: any wrong-length ciphertext fails with the length error
even when the key lacks the private half, so the `noPrivateKey` error can
only arise for ciphertexts of exactly k bytes. -/
theorem C10_length_check_first (ct sentinel : List Nat) (key : RSAKey) :
    (ct.length ≠ keyK key →
      decrypt ct key sentinel = .error .invalidCiphertextLength) ∧
    (decrypt ct key sentinel = .error .noPrivateKey →
      ct.length = keyK key) := by
  constructor
  · intro h
    simp only [decrypt, if_pos h]
  · intro h
    by_contra hlen
    simp only [decrypt, if_pos hlen] at h
    exact DecErr.noConfusion (Except.error.inj h)

/-- Witness for C10: an 11-byte ciphertext under the public-only key fails
with the length error, not the capability error. -/
theorem C10_length_check_first_witness :
    decrypt (List.replicate 11 1) keyPub [9] =
      .error .invalidCiphertextLength :=
  (C10_length_check_first (List.replicate 11 1) [9] keyPub).1 (by decide)

end PKCS1
